import Mathlib

/-!
Verification of the workshop-app session-broadcast protocol.

Shallow embedding of `src/server.js` (the WebSocket message router and the
in-memory session registry) and of the relevant parts of `src/app.js`
(the second, current `WorkshopApp` client: reconnect backoff, heartbeat,
participant-view progress).  JS `Map`s are modelled as insertion-ordered
lists keyed by participant id, JS `Set`s as duplicate-free insertion-ordered
lists, JS numbers as `Int`/`Nat` (and `ℚ` where real division occurs), and
the random base-36 id generator `generateId` as a fresh-id counter supply.
Message sends are returned explicitly as `(connection, message)` pairs.
-/

namespace Workshop

/-- A WebSocket connection handle (`ws`). -/
abbrev ConnId := Nat

/-- A server-side participant record, as built in `handleJoin`:
`{ id, name, completedSteps (a Set), ws }`. -/
structure Participant where
  id : Nat
  name : String
  completedSteps : List Int
  ws : ConnId
deriving Repr, DecidableEq

/-- One workshop step from `steps.json`: `{id, title, description, estimatedTime}`. -/
structure Step where
  id : Int
  title : String
  description : String
  estimatedTime : String
deriving Repr, DecidableEq

/-- The server's `workshopState` (`participants` is a JS `Map` keyed by
participant id, modelled as an insertion-ordered list; `nextId` models the
fresh-id supply behind `generateId`). -/
structure WorkshopState where
  participants : List Participant
  currentStep : Int
  steps : List Step
  nextId : Nat
deriving Repr, DecidableEq

/-- The initial `workshopState`: no participants, `currentStep: 0`, `steps: []`. -/
def initialState : WorkshopState := ⟨[], 0, [], 0⟩

/-- The public view of a participant sent on the wire
(`{id, name, completedSteps: Array.from(...)}`). -/
structure PublicParticipant where
  id : Nat
  name : String
  completedSteps : List Int
deriving Repr, DecidableEq

/-- Server-to-client wire messages (`type` tags of `src/server.js` sends,
plus the `pong` the spec's wire-protocol table lists). -/
inductive ServerMsg where
  | joined (participantId : Nat) (currentStep : Int)
  | participantJoined (participant : PublicParticipant)
  | participantLeft (participantId : Nat)
  | stepCompleted (participantId : Nat) (stepId : Int)
  | stepChanged (stepIndex : Int)
  | stateUpdate (participants : List PublicParticipant) (currentStep : Int)
  | pong
deriving Repr, DecidableEq

/-- Client-to-server wire messages dispatched by `handleMessage`
(`join`, `step_complete`, `step_change`, `request_state`) plus the `ping`
the client's heartbeat sends. -/
inductive ClientMsg where
  | join (name : String)
  | stepComplete (stepId : Int)
  | stepChange (stepIndex : Int)
  | requestState
  | ping
deriving Repr, DecidableEq

/-- `broadcast(data, excludeWs)` of `src/server.js`: send `msg` to every
currently-open connection other than `excludeWs`.  `clients` is `wss.clients`
restricted to sockets with `readyState === OPEN`, in iteration order. -/
def broadcast (clients : List ConnId) (msg : ServerMsg) (excludeWs : Option ConnId) :
    List (ConnId × ServerMsg) :=
  (clients.filter fun c => excludeWs ≠ some c).map fun c => (c, msg)

/-- `workshopState.participants.set(p.id, p)`: a JS `Map.set`, replacing in
place when the key is present and appending otherwise. -/
def mapSet (l : List Participant) (p : Participant) : List Participant :=
  if l.any fun q => q.id = p.id then l.map fun q => if q.id = p.id then p else q
  else l ++ [p]

/-- The wire view `{id, name, completedSteps: Array.from(completedSteps)}`. -/
def pubView (p : Participant) : PublicParticipant :=
  ⟨p.id, p.name, p.completedSteps⟩

/-- `handleJoin(ws, data)`: create a participant with a fresh id and empty
`completedSteps`, store it, unicast `joined` to the sender, then
`broadcast({type: 'participant_joined', ...})` with no exclusion. -/
def handleJoin (clients : List ConnId) (st : WorkshopState) (ws : ConnId)
    (name : String) : WorkshopState × List (ConnId × ServerMsg) :=
  let participant : Participant := ⟨st.nextId, name, [], ws⟩
  let st1 : WorkshopState :=
    { st with participants := mapSet st.participants participant,
              nextId := st.nextId + 1 }
  (st1, (ws, ServerMsg.joined participant.id st.currentStep) ::
        broadcast clients (ServerMsg.participantJoined (pubView participant)) none)

/-- `findParticipantByWs(ws)`: first participant (insertion order) whose
`ws` field is this connection, else `null`. -/
def findParticipantByWs (l : List Participant) (ws : ConnId) : Option Participant :=
  l.find? fun p => p.ws = ws

/-- `Set.prototype.add` on the insertion-ordered duplicate-free list model:
append only when absent. -/
def setAdd (l : List Int) (x : Int) : List Int :=
  if x ∈ l then l else l ++ [x]

/-- `handleStepComplete(ws, data)`: if a participant is bound to `ws`, add
`stepId` to its `completedSteps` (in-place mutation of the `Map` entry,
modelled as replacement at its id) and broadcast `step_completed` with no
exclusion; otherwise do nothing. -/
def handleStepComplete (clients : List ConnId) (st : WorkshopState) (ws : ConnId)
    (stepId : Int) : WorkshopState × List (ConnId × ServerMsg) :=
  match findParticipantByWs st.participants ws with
  | none => (st, [])
  | some p =>
    let p1 : Participant := { p with completedSteps := setAdd p.completedSteps stepId }
    let st1 : WorkshopState :=
      { st with participants :=
          st.participants.map fun q => if q.id = p.id then p1 else q }
    (st1, broadcast clients (ServerMsg.stepCompleted p.id stepId) none)

/-- `handleStepChange(ws, data)`: overwrite `workshopState.currentStep` with
`data.stepIndex` and broadcast `step_changed`; `ws` is never consulted and no
bounds check is made. -/
def handleStepChange (clients : List ConnId) (st : WorkshopState) (_ws : ConnId)
    (stepIndex : Int) : WorkshopState × List (ConnId × ServerMsg) :=
  ({ st with currentStep := stepIndex },
   broadcast clients (ServerMsg.stepChanged stepIndex) none)

/-- `sendCurrentState(ws)`: unicast a full `state_update` snapshot. -/
def sendCurrentState (st : WorkshopState) (ws : ConnId) : List (ConnId × ServerMsg) :=
  [(ws, ServerMsg.stateUpdate (st.participants.map pubView) st.currentStep)]

/-- `handleMessage(ws, data)`: the `switch (data.type)` of `src/server.js`.
There is no `ping` case and no `default`, so a `ping` falls through the
switch and nothing at all happens. -/
def handleMessage (clients : List ConnId) (st : WorkshopState) (ws : ConnId) :
    ClientMsg → WorkshopState × List (ConnId × ServerMsg)
  | ClientMsg.join name => handleJoin clients st ws name
  | ClientMsg.stepComplete stepId => handleStepComplete clients st ws stepId
  | ClientMsg.stepChange stepIndex => handleStepChange clients st ws stepIndex
  | ClientMsg.requestState => (st, sendCurrentState st ws)
  | ClientMsg.ping => (st, [])

/-- Delete of the first (insertion order) participant bound to `ws`, as the
`for ... break` loop in the `ws.on('close')` handler does. -/
def removeFirstByWs : List Participant → ConnId → List Participant
  | [], _ => []
  | p :: rest, ws => if p.ws = ws then rest else p :: removeFirstByWs rest ws

/-- The `ws.on('close')` handler: remove the first participant bound to the
closing connection (if any) and broadcast `participant_left`; `clients` here
is `wss.clients` after the closing socket has left the OPEN state. -/
def handleClose (clients : List ConnId) (st : WorkshopState) (ws : ConnId) :
    WorkshopState × List (ConnId × ServerMsg) :=
  match findParticipantByWs st.participants ws with
  | none => (st, [])
  | some p =>
    ({ st with participants := removeFirstByWs st.participants ws },
     broadcast clients (ServerMsg.participantLeft p.id) none)

/-- `broadcast` with `excludeWs = null` reaches every open connection. -/
theorem broadcast_none (clients : List ConnId) (msg : ServerMsg) :
    broadcast clients msg none = clients.map fun c => (c, msg) := by
  unfold broadcast
  induction clients with
  | nil => rfl
  | cons c cs ih => simp

/-! ## Client model (`src/app.js`, current `WorkshopApp`) -/

/-- The client connection fields relevant to reconnect scheduling. -/
structure ClientConn where
  reconnectAttempts : Nat
deriving Repr, DecidableEq

/-- `scheduleReconnect()`: compute
`delay = Math.min(1000 * Math.pow(2, this.reconnectAttempts), 30000)` and then
increment `this.reconnectAttempts`; returns the scheduled delay in ms together
with the successor state. -/
def scheduleReconnect (s : ClientConn) : Nat × ClientConn :=
  (min (1000 * 2 ^ s.reconnectAttempts) 30000, ⟨s.reconnectAttempts + 1⟩)

/-- The assignment `this.reconnectAttempts = 0` that `setupWebSocket()`
performs right after constructing the socket, before any open or close event
fires. -/
def setupWebSocketReset (_s : ClientConn) : ClientConn := ⟨0⟩

/-- The delays scheduled by a client all of whose connection attempts fail:
each attempt runs `setupWebSocket()` (resetting the counter) and then its
close handler runs `scheduleReconnect()`. -/
def failureDelays : Nat → ClientConn → List Nat
  | 0, _ => []
  | n + 1, s =>
    let s1 := setupWebSocketReset s
    let ds := scheduleReconnect s1
    ds.1 :: failureDelays n ds.2

/-- Modelled from the spec: the claimed backoff schedule, in which the delay
for the n-th consecutive failure is `min(1000 * 2^n, 30000)` because the
attempt counter resets only on a successful Open. -/
def specBackoffDelays (n : Nat) : List Nat :=
  (List.range n).map fun k => min (1000 * 2 ^ k) 30000

/-- One tick of the `setInterval` body in `startHeartbeat()`: when the socket
is OPEN the client sends a ping and closes the socket exactly when
`Date.now() - this.lastPong > 10000`.  Returns whether this tick closes the
connection. -/
def heartbeatTickCloses (wsOpen : Bool) (now lastPong : Nat) : Bool :=
  wsOpen && decide (10000 < now - lastPong)

/-- The interval fires every 5000 ms after `startHeartbeat()` ran at
`openTime` (which also set `lastPong := openTime`). -/
def tickTime (openTime k : Nat) : Nat := openTime + 5000 * (k + 1)

/-- The participant-view client-mirror fields that feed the progress
computation in `renderParticipant()`. -/
structure ClientState where
  steps : List Step
  currentStepIndex : Int
  participantId : Option Nat
  completedSteps : List Int
  modeParticipant : Bool
deriving Repr, DecidableEq

/-- The client mirror right after construction and `loadSteps()`:
`currentStepIndex = 0`, no id, empty `completedSteps`, participant mode. -/
def initialClient (steps : List Step) : ClientState :=
  ⟨steps, 0, none, [], true⟩

/-- JS array indexing `steps[i]`: `undefined` (`none`) for a negative or
out-of-range index. -/
def stepsGet (steps : List Step) (i : Int) : Option Step :=
  if 0 ≤ i then steps.get? i.toNat else none

/-- `completeCurrentStep()`: early return unless in participant mode with an
id and a nonempty step list; then read `steps[currentStepIndex]` (`none`
models the TypeError the JS throws when that is `undefined`), return if the
step id is already in the set, else add it (and send `step_complete`). -/
def completeCurrentStep (s : ClientState) : Option ClientState :=
  if s.modeParticipant = false ∨ s.participantId = none ∨ s.steps.length = 0 then
    some s
  else
    match stepsGet s.steps s.currentStepIndex with
    | none => none
    | some step =>
      if step.id ∈ s.completedSteps then some s
      else some { s with completedSteps := s.completedSteps ++ [step.id] }

/-- The participant-view operations that touch the fields behind the progress
computation: a click on the complete button, and the `joined` /
`step_changed` arms of `handleWebSocketMessage` (the remaining arms only
touch the master-view `participants` map). -/
inductive ClientEvent where
  | completeClick
  | joinedMsg (pid : Nat) (idx : Int)
  | stepChangedMsg (idx : Int)
deriving Repr, DecidableEq

/-- Apply one participant-view operation to the client mirror. -/
def clientApply (s : ClientState) : ClientEvent → Option ClientState
  | ClientEvent.completeClick => completeCurrentStep s
  | ClientEvent.joinedMsg pid idx =>
      some { s with participantId := some pid, currentStepIndex := idx }
  | ClientEvent.stepChangedMsg idx =>
      some { s with currentStepIndex := idx }

/-- Client-mirror states reachable from the freshly-loaded participant view
through the operations above. -/
inductive ClientReachable (steps : List Step) : ClientState → Prop
  | init : ClientReachable steps (initialClient steps)
  | next {s s2 : ClientState} (e : ClientEvent) :
      ClientReachable steps s → clientApply s e = some s2 → ClientReachable steps s2

/-- The progress computation in `renderParticipant()`:
`totalCount > 0 ? (completedCount / totalCount) * 100 : 0`, with JS float
division modelled over `ℚ`. -/
def progressPercent (s : ClientState) : ℚ :=
  if 0 < s.steps.length then
    ((s.completedSteps.length : ℚ) / (s.steps.length : ℚ)) * 100
  else 0

/-- Modelled from the spec: "progress percentage = completedCount /
totalSteps × 100, clamped to [0,100] and displaying 0 when totalSteps is 0". -/
def specProgressPercent (completedCount totalSteps : Nat) : ℚ :=
  if totalSteps = 0 then 0
  else min 100 (max 0 (((completedCount : ℚ) / (totalSteps : ℚ)) * 100))

/-! ## Helper lemmas -/

/-- Replacing the entry whose id is `p.id` by `p` itself is the identity when
no entry carries that id. -/
theorem map_replace_of_not_mem (l : List Participant) (p : Participant)
    (h : ∀ q ∈ l, q.id ≠ p.id) :
    (l.map fun q => if q.id = p.id then p else q) = l := by
  induction l with
  | nil => rfl
  | cons a rest ih =>
    simp only [List.map_cons]
    rw [if_neg (h a (List.mem_cons_self a rest)), ih fun q hq => h q (List.mem_cons_of_mem a hq)]

/-- With pairwise-distinct ids (the JS `Map` key invariant), replacing the
entry at `p.id` by `p` for some member `p` is the identity. -/
theorem map_replace_self (l : List Participant) (p : Participant)
    (hids : (l.map Participant.id).Nodup) (hp : p ∈ l) :
    (l.map fun q => if q.id = p.id then p else q) = l := by
  induction l with
  | nil => rfl
  | cons a rest ih =>
    simp only [List.map_cons, List.nodup_cons] at hids
    rcases List.mem_cons.mp hp with h | h
    · subst h
      have hrest : (rest.map fun q => if q.id = p.id then p else q) = rest :=
        map_replace_of_not_mem rest p fun q hq hqid =>
          hids.1 (hqid ▸ List.mem_map_of_mem Participant.id hq)
      simp only [List.map_cons, hrest, ite_self]
    · have hne : a.id ≠ p.id := fun hEq =>
        hids.1 (hEq ▸ List.mem_map_of_mem Participant.id h)
      simp only [List.map_cons, if_neg hne, ih hids.2 h]

/-- A duplicate-free list contained in `ids` is no longer than `ids`. -/
theorem nodup_subset_length_le (l ids : List Int) (hnd : l.Nodup)
    (hsub : ∀ x ∈ l, x ∈ ids) : l.length ≤ ids.length :=
  calc l.length = l.toFinset.card := (List.toFinset_card_of_nodup hnd).symm
    _ ≤ ids.toFinset.card := Finset.card_le_card fun x hx =>
        List.mem_toFinset.mpr (hsub x (List.mem_toFinset.mp hx))
    _ ≤ ids.length := ids.toFinset_card_le

/-! ## Claims -/

/-- C1 (code_bug evidence): `handleMessage` has no `ping` case, so a `ping`
from any connection — in any server state — produces no state change and no
outbound message at all; in particular the server never replies `pong`. -/
theorem ping_gets_no_pong (clients : List ConnId) (st : WorkshopState) (ws : ConnId) :
    handleMessage clients st ws ClientMsg.ping = (st, []) := rfl

/-- C2 (code_bug evidence): because `setupWebSocket()` resets
`reconnectAttempts` to 0 at the start of every attempt, a client whose
attempts all fail schedules a constant 1000 ms delay each time, while the
spec's schedule (counter reset only on a successful Open) is
[1000, 2000, 4000, 8000, 16000, 30000, 30000]. -/
theorem reconnect_delays_all_1000 :
    failureDelays 7 ⟨0⟩ = [1000, 1000, 1000, 1000, 1000, 1000, 1000] ∧
    specBackoffDelays 7 = [1000, 2000, 4000, 8000, 16000, 30000, 30000] := by
  constructor <;> rfl

/-- C3 counterexample: from the initial state with open connections 1 and 2,
a `join` sent on connection 1 makes the server deliver the
`participant_joined` event to connection 1 — the sender — as well, right
after the unicast `joined` reply. -/
theorem join_echo_to_sender_cex :
    (handleJoin [1, 2] initialState 1 "alice").2 =
      [(1, ServerMsg.joined 0 0),
       (1, ServerMsg.participantJoined ⟨0, "alice", []⟩),
       (2, ServerMsg.participantJoined ⟨0, "alice", []⟩)] := rfl

/-- C3 amended: for every join, the server unicasts the `joined` reply to the
sender and then broadcasts `participant_joined` (carrying id, name and
completedSteps as a list) to all open connections, the sender included —
`broadcast` is called without an exclusion. -/
theorem join_broadcast_includes_sender (clients : List ConnId) (st : WorkshopState)
    (ws : ConnId) (name : String) :
    (handleJoin clients st ws name).2 =
      (ws, ServerMsg.joined st.nextId st.currentStep) ::
        clients.map fun c => (c, ServerMsg.participantJoined ⟨st.nextId, name, []⟩) := by
  simp [handleJoin, broadcast_none, pubView]

/-- C4 counterexample: two `join` messages on connection 1 leave two live
Participant entries bound to that connection. -/
theorem double_join_two_entries_cex :
    ((handleJoin [1] (handleJoin [1] initialState 1 "bob").1 1 "bob").1.participants.filter
        fun p => p.ws = 1).length = 2 := rfl

/-- C4 amended: `handleJoin` never checks whether the connection already has
a bound participant: whenever the generated id is fresh (as the id supply
guarantees), it appends a brand-new entry, so the number of live entries
bound to the sender's connection grows by one with every join on it. -/
theorem join_appends_new_entry (clients : List ConnId) (st : WorkshopState)
    (ws : ConnId) (name : String)
    (hfresh : st.nextId ∉ st.participants.map Participant.id) :
    (handleJoin clients st ws name).1.participants =
      st.participants ++ [⟨st.nextId, name, [], ws⟩] ∧
    (handleJoin clients st ws name).1.nextId = st.nextId + 1 ∧
    ((handleJoin clients st ws name).1.participants.filter fun p => p.ws = ws).length =
      (st.participants.filter fun p => p.ws = ws).length + 1 := by
  have hany : (st.participants.any fun q => q.id = st.nextId) = false := by
    rw [List.any_eq_false]
    intro q hq
    simp only [decide_eq_true_eq]
    intro hEq
    exact hfresh (hEq ▸ List.mem_map_of_mem Participant.id hq)
  have happ : (handleJoin clients st ws name).1.participants =
      st.participants ++ [⟨st.nextId, name, [], ws⟩] := by
    simp [handleJoin, mapSet, hany]
  refine ⟨happ, rfl, ?_⟩
  rw [happ, List.filter_append]
  simp

/-- C4 amended, witness at the initial state. -/
theorem join_appends_new_entry_w :
    (initialState.nextId ∉ initialState.participants.map Participant.id) ∧
    ((handleJoin [1] initialState 1 "bob").1.participants =
        initialState.participants ++ [⟨initialState.nextId, "bob", [], 1⟩] ∧
      (handleJoin [1] initialState 1 "bob").1.nextId = initialState.nextId + 1 ∧
      ((handleJoin [1] initialState 1 "bob").1.participants.filter fun p => p.ws = 1).length =
        (initialState.participants.filter fun p => p.ws = 1).length + 1) :=
  ⟨by simp [initialState], join_appends_new_entry [1] initialState 1 "bob" (by simp [initialState])⟩

/-- C7: a `step_complete` on a connection with no bound participant is a
silent no-op: the whole session state (participants with all their
completedSteps sets, currentStep, steps, id supply) is returned unchanged and
no message is sent; `handleStepComplete` is total, so no error is raised. -/
theorem step_complete_unjoined_noop (clients : List ConnId) (st : WorkshopState)
    (ws : ConnId) (stepId : Int)
    (hfind : findParticipantByWs st.participants ws = none) :
    handleStepComplete clients st ws stepId = (st, []) := by
  simp [handleStepComplete, hfind]

/-- C7 witness: the initial state has nobody bound to connection 1. -/
theorem step_complete_unjoined_noop_w :
    findParticipantByWs initialState.participants 1 = none ∧
    handleStepComplete [1, 2] initialState 1 5 = (initialState, []) :=
  ⟨rfl, step_complete_unjoined_noop [1, 2] initialState 1 5 rfl⟩

/-- C8: for every state (whatever the loaded step sequence) and every integer
`stepIndex` — negative or past the end included — `handleStepChange`
overwrites `currentStep` with the received value and broadcasts
`step_changed`; no bounds check guards the overwrite. -/
theorem step_change_no_bounds_check (clients : List ConnId) (st : WorkshopState)
    (ws : ConnId) (stepIndex : Int) :
    handleStepChange clients st ws stepIndex =
      ({ st with currentStep := stepIndex },
       broadcast clients (ServerMsg.stepChanged stepIndex) none) := rfl

/-- C10: the server applies `step_change` identically for every sender — the
handler never consults the sending connection or whether it has joined — and
the effect is always the unconditional overwrite plus an unexcluded
broadcast. -/
theorem step_change_any_sender (clients : List ConnId) (st : WorkshopState)
    (ws1 ws2 : ConnId) (stepIndex : Int) :
    handleMessage clients st ws1 (ClientMsg.stepChange stepIndex) =
      handleMessage clients st ws2 (ClientMsg.stepChange stepIndex) ∧
    handleMessage clients st ws1 (ClientMsg.stepChange stepIndex) =
      ({ st with currentStep := stepIndex },
       broadcast clients (ServerMsg.stepChanged stepIndex) none) :=
  ⟨rfl, rfl⟩

/-- C5: with the socket open and no pong observed since `startHeartbeat` set
`lastPong := openTime`, some heartbeat tick — the one 15000 ms after the last
pong, the first whose elapsed time exceeds the 10000 ms deadline — closes the
connection, so an Open connection is never left open indefinitely past the
deadline without the client initiating its close-and-reconnect cycle. -/
theorem heartbeat_dead_connection_closes (openTime : Nat) :
    ∃ k, heartbeatTickCloses true (tickTime openTime k) openTime = true ∧
      tickTime openTime k - openTime ≤ 15000 := by
  refine ⟨2, ?_, ?_⟩
  · simp only [heartbeatTickCloses, tickTime, Bool.true_and, decide_eq_true_eq]
    omega
  · simp only [tickTime]
    omega

/-- C6: a `step_complete` whose `stepId` is already in the sender's
`completedSteps` leaves the whole session state unchanged — in particular
that participant's set keeps the same size and elements — while the
`step_completed` broadcast still goes out.  `hids` is the JS `Map` key
invariant (ids are pairwise distinct). -/
theorem step_complete_idempotent (clients : List ConnId) (st : WorkshopState)
    (ws : ConnId) (stepId : Int) (p : Participant)
    (hids : (st.participants.map Participant.id).Nodup)
    (hfind : findParticipantByWs st.participants ws = some p)
    (hmem : stepId ∈ p.completedSteps) :
    handleStepComplete clients st ws stepId =
      (st, broadcast clients (ServerMsg.stepCompleted p.id stepId) none) := by
  have hp : p ∈ st.participants := List.mem_of_find?_eq_some hfind
  have hadd : setAdd p.completedSteps stepId = p.completedSteps := by
    simp [setAdd, hmem]
  have hmk : Participant.mk p.id p.name p.completedSteps p.ws = p := rfl
  simp only [handleStepComplete, hfind, hadd, hmk,
    map_replace_self st.participants p hids hp]

/-- A one-participant state for the C6 witness: participant 0 on connection 1
has already completed step 2. -/
def sampleState : WorkshopState := ⟨[⟨0, "bob", [2], 1⟩], 0, [], 1⟩

/-- C6 witness: re-completing step 2 leaves `sampleState` unchanged. -/
theorem step_complete_idempotent_w :
    (sampleState.participants.map Participant.id).Nodup ∧
    handleStepComplete [1] sampleState 1 2 =
      (sampleState, broadcast [1] (ServerMsg.stepCompleted 0 2) none) :=
  ⟨by decide,
   step_complete_idempotent [1] sampleState 1 2 ⟨0, "bob", [2], 1⟩ (by decide) rfl (by decide)⟩

/-- A successful `steps[i]` read returns a member of the step list. -/
theorem stepsGet_mem {steps : List Step} {i : Int} {st : Step}
    (h : stepsGet steps i = some st) : st ∈ steps := by
  unfold stepsGet at h
  split at h
  · exact List.get?_mem h
  · simp at h

/-- Structural invariant of reachable participant-view states: the step list
is the loaded one, `completedSteps` is duplicate-free, and every recorded id
is the id of some loaded step. -/
theorem client_reachable_inv (steps : List Step) (s : ClientState)
    (h : ClientReachable steps s) :
    s.steps = steps ∧ s.completedSteps.Nodup ∧
      ∀ x ∈ s.completedSteps, x ∈ steps.map Step.id := by
  induction h with
  | init => exact ⟨rfl, List.nodup_nil, by simp [initialClient]⟩
  | next e hr happ ih =>
    obtain ⟨hsteps, hnd, hsub⟩ := ih
    cases e with
    | joinedMsg pid idx =>
      simp only [clientApply, Option.some.injEq] at happ
      subst happ
      exact ⟨hsteps, hnd, hsub⟩
    | stepChangedMsg idx =>
      simp only [clientApply, Option.some.injEq] at happ
      subst happ
      exact ⟨hsteps, hnd, hsub⟩
    | completeClick =>
      simp only [clientApply] at happ
      unfold completeCurrentStep at happ
      split at happ
      · simp only [Option.some.injEq] at happ
        subst happ
        exact ⟨hsteps, hnd, hsub⟩
      · split at happ
        · simp at happ
        · rename_i step hget
          split at happ
          · simp only [Option.some.injEq] at happ
            subst happ
            exact ⟨hsteps, hnd, hsub⟩
          · rename_i hnotmem
            simp only [Option.some.injEq] at happ
            subst happ
            refine ⟨hsteps, ?_, ?_⟩
            · simp [List.nodup_append, hnd, hnotmem]
            · intro x hx
              rcases List.mem_append.mp hx with hx | hx
              · exact hsub x hx
              · rw [List.mem_singleton.mp hx]
                exact List.mem_map_of_mem Step.id (hsteps ▸ stepsGet_mem hget)

/-- C9: in every reachable participant-view state the rendered progress value
equals the spec's clamped formula, is 0 when there are no loaded steps, and
always lies in [0, 100]; the `totalCount > 0` guard means division by zero
never occurs. -/
theorem progress_percent_spec (steps : List Step) (s : ClientState)
    (h : ClientReachable steps s) :
    progressPercent s = specProgressPercent s.completedSteps.length s.steps.length ∧
    (s.steps.length = 0 → progressPercent s = 0) ∧
    0 ≤ progressPercent s ∧ progressPercent s ≤ 100 := by
  obtain ⟨hsteps, hnd, hsub⟩ := client_reachable_inv steps s h
  have hle : s.completedSteps.length ≤ s.steps.length := by
    have hlen := nodup_subset_length_le s.completedSteps (steps.map Step.id) hnd hsub
    rw [List.length_map] at hlen
    rw [hsteps]
    exact hlen
  rcases Nat.eq_zero_or_pos s.steps.length with h0 | hpos
  · refine ⟨?_, fun _ => ?_, ?_, ?_⟩ <;>
      simp [progressPercent, specProgressPercent, h0]
  · have hq : (0 : ℚ) < (s.steps.length : ℚ) := by exact_mod_cast hpos
    have hratio : ((s.completedSteps.length : ℚ) / (s.steps.length : ℚ)) ≤ 1 := by
      rw [div_le_one hq]
      exact_mod_cast hle
    have hnonneg : (0 : ℚ) ≤ ((s.completedSteps.length : ℚ) / (s.steps.length : ℚ)) * 100 := by
      positivity
    have hle100 : ((s.completedSteps.length : ℚ) / (s.steps.length : ℚ)) * 100 ≤ 100 := by
      calc ((s.completedSteps.length : ℚ) / (s.steps.length : ℚ)) * 100
          ≤ 1 * 100 := mul_le_mul_of_nonneg_right hratio (by norm_num)
        _ = 100 := one_mul 100
    refine ⟨?_, fun hz => absurd hz (Nat.pos_iff_ne_zero.mp hpos), ?_, ?_⟩
    · unfold progressPercent specProgressPercent
      rw [if_pos hpos, if_neg (Nat.pos_iff_ne_zero.mp hpos),
        max_eq_right hnonneg, min_eq_right hle100]
    · unfold progressPercent
      rw [if_pos hpos]
      exact hnonneg
    · unfold progressPercent
      rw [if_pos hpos]
      exact hle100

/-- The step list for the C9 witness. -/
def wSteps : List Step := [⟨1, "t", "d", "5m"⟩]

/-- A reachable client mirror for the C9 witness: joined as participant 7 and
completed the only step. -/
def wClient : ClientState := ⟨wSteps, 0, some 7, [1], true⟩

/-- C9 witness: `wClient` is reached by a `joined` message followed by a
complete click, and its progress is the spec's clamped value. -/
theorem progress_percent_spec_w :
    ClientReachable wSteps wClient ∧
    (progressPercent wClient =
        specProgressPercent wClient.completedSteps.length wClient.steps.length ∧
      (wClient.steps.length = 0 → progressPercent wClient = 0) ∧
      0 ≤ progressPercent wClient ∧ progressPercent wClient ≤ 100) :=
  have h : ClientReachable wSteps wClient :=
    ClientReachable.next ClientEvent.completeClick
      (ClientReachable.next (ClientEvent.joinedMsg 7 0) ClientReachable.init rfl) rfl
  ⟨h, progress_percent_spec wSteps wClient h⟩

end Workshop
